import Mathlib

/-!
# Verification of the Cells Sync patch store (`endpoint/patch-store.go`)

A shallow embedding of the patch ledger of Cells Sync: the data model for
synchronization patches and their operations (including conflict
operations), and the `PatchStore` persistence layer built on an ordered
key-value store (BoltDB).  Go byte slices are modelled as `List Nat`
(each entry a byte value), Go `int` as `Int`, timestamps as `Int`, and
the bbolt buckets as association lists kept in ascending key order (a
bbolt bucket is an ordered map over byte-string keys).
-/

namespace CellsSync

/-- The operation type tags of the merger operation model
(`merger.OperationType`); the patch store itself only distinguishes
`conflict` from the rest. -/
inductive OperationType where
  | createFile
  | createFolder
  | moveFile
  | moveFolder
  | updateFile
  | delete
  | conflict
deriving DecidableEq, Repr

/-- An in-memory merger operation.  A `base` operation is a plain
`patchOperation` carrying its type tag and the affected node; a
`conflict` operation (`merger.NewConflictOperation`) wraps a conflict
classification and the two competing operations. -/
inductive Operation where
  | base (t : OperationType) (node : String) : Operation
  | conflict (node : String) (cType : Int) (leftOp rightOp : Operation) : Operation
deriving DecidableEq, Repr

/-- `op.Type()` of a merger operation. -/
def Operation.type : Operation → OperationType
  | .base t _ => t
  | .conflict _ _ _ _ => .conflict

/-- `op.GetNode()` of a merger operation. -/
def Operation.node : Operation → String
  | .base _ n => n
  | .conflict n _ _ _ => n

/-- `true` exactly on `base` operations (plain `patchOperation` values,
as opposed to constructed conflict operations). -/
def Operation.isBase : Operation → Bool
  | .base _ _ => true
  | .conflict _ _ _ _ => false

/-- The JSON bytes of one stored operation record, as far as the load
path of `patch-store.go` inspects them: `malformed` stands for bytes
that `json.Unmarshal` rejects; `obj` stands for a well-formed object
with its type tag, its node, and the three conflict payload keys
`ConflictType`, `LeftOp` and `RightOp`, each present or absent
(`Option`). -/
inductive StoredOp where
  | malformed : StoredOp
  | obj (t : OperationType) (node : String) (conflictType : Option Int)
      (leftOp : Option StoredOp) (rightOp : Option StoredOp) : StoredOp
deriving Repr

/-- Modelled from the spec: `json.Marshal` of a merger operation
(external `merger` package).  Per the spec's persisted-layout contract,
a conflict operation serializes its classification tag and both nested
operations in full under the keys `ConflictType`, `LeftOp`, `RightOp`;
a plain operation carries none of these keys. -/
def marshalOp : Operation → StoredOp
  | .base t n => .obj t n none none none
  | .conflict n c l r => .obj .conflict n (some c) (some (marshalOp l)) (some (marshalOp r))

/-- `json.Unmarshal` of stored bytes into `merger.NewOpForUnmarshall()`:
it either fails (`malformed` bytes) or yields a plain `patchOperation`
with the stored type tag and node; nested conflict payload keys are not
interpreted at this stage. -/
def unmarshalBase : StoredOp → Option Operation
  | .malformed => none
  | .obj t n _ _ _ => some (.base t n)

/-- `PatchStore.unmarshalConflict` (patch-store.go:110-147): non-conflict
operations pass through untouched; for a conflict-typed operation the
raw payload must supply `ConflictType`, `LeftOp` and `RightOp`, the two
nested payloads must themselves unmarshal as operations, and the result
is `merger.NewConflictOperation(node, cType, leftOp, rightOp)`.  Any
missing key or failing nested unmarshal is an error (`none`), matching
the Go `(nil, err)` return. -/
def unmarshalConflict (data : StoredOp) (op : Operation) : Option Operation :=
  if op.type ≠ .conflict then some op
  else
    match data with
    | .malformed => none
    | .obj _ _ conflictType leftOp rightOp =>
      match conflictType with
      | none => none
      | some cType =>
        match leftOp with
        | none => none
        | some leftData =>
          match unmarshalBase leftData with
          | none => none
          | some lOp =>
            match rightOp with
            | none => none
            | some rightData =>
              match unmarshalBase rightData with
              | none => none
              | some rOp => some (.conflict op.node cType lOp rOp)

/-- One iteration of the operation-loading loop in `Load`
(patch-store.go:181-191) applied to one stored value `v`.  The outer
`Option` is whether anything is enqueued at all: if the initial
`json.Unmarshal` fails the code logs and skips (`none`).  Otherwise the
code runs `unmarshalConflict` and then unconditionally enqueues the
result variable: on conflict-unmarshal failure that variable holds the
`nil` returned with the error, so a `some none` (an enqueued nil
operation) is produced, not a skip. -/
def loadOp (v : StoredOp) : Option (Option Operation) :=
  match unmarshalBase v with
  | none => none
  | some op =>
    match unmarshalConflict v op with
    | none => some none
    | some op2 => some (some op2)

/-- The sequence of operations enqueued into a patch when walking its
stored operation values in cursor order. -/
def loadOps (vs : List StoredOp) : List (Option Operation) :=
  vs.filterMap loadOp

/-- `itob`'s big-endian byte expansion: `toBytesBE n v` is the `n`
low-order bytes of `v`, most significant first. -/
def toBytesBE : Nat → Nat → List Nat
  | 0, _ => []
  | n + 1, v => toBytesBE n (v / 256) ++ [v % 256]

/-- `itob` (patch-store.go:291-295): the 8-byte big-endian
representation of a sequence number. -/
def itob (v : Nat) : List Nat := toBytesBE 8 v

/-- Go `bytes.Compare k₁ k₂ < 0`: strict lexicographic order on byte
strings, the key order of a bbolt bucket cursor. -/
def bytesLt : List Nat → List Nat → Bool
  | _, [] => false
  | [], _ :: _ => true
  | a :: as, b :: bs => if a < b then true else if b < a then false else bytesLt as bs

/-- `bucket.Put k v` on a bbolt bucket modelled as an association list
in ascending key order: insert at the key's position, replacing an
equal key. -/
def bucketPut (k : List Nat) (v : StoredOp) :
    List (List Nat × StoredOp) → List (List Nat × StoredOp)
  | [] => [(k, v)]
  | (k', v') :: rest =>
    if bytesLt k k' then (k, v) :: (k', v') :: rest
    else if k = k' then (k, v) :: rest
    else (k', v') :: bucketPut k v rest

/-- An in-memory patch handed to the store by the merge engine:
identifier, originating source endpoint URI, target endpoint URI,
creation stamp, the operations in enqueue order, and the error list
reported by `HasErrors`. -/
structure Patch where
  uuid : String
  sourceURI : String
  targetURI : String
  stamp : Int
  operations : List Operation
  errors : List String
deriving Repr

/-- The boolean component of `patch.HasErrors()`: whether the patch
reports at least one error. -/
def Patch.hasErrorsB (p : Patch) : Bool := !p.errors.isEmpty

/-- The per-patch sub-bucket contents as written by `persist`
(patch-store.go:252-288): the serialized `stamp`, the optional
`patchError` text, the `source` endpoint identity string, and the
`operations` sub-bucket keyed by 8-byte big-endian sequence numbers.
`stampData` distinguishes an absent `stamp` entry (`none`), a present
but unparsable one (`some none`) and one parsing to a time
(`some (some t)`); `sourceURI` is `none` when the `source` entry is
absent. -/
structure PatchRecord where
  stampData : Option (Option Int)
  patchError : Option String
  sourceURI : Option String
  ops : List (List Nat × StoredOp)
deriving Repr

/-- The `patches` top-level bucket: one sub-bucket per patch, keyed by
its UUID string.  Iteration order of this bucket is irrelevant to every
claim because `Load` re-sorts by stamp, so it is modelled as a plain
association list. -/
abbrev Db : Type := List (String × PatchRecord)

/-- The operation-serialization loop of `persist`
(patch-store.go:279-285): for each operation in walk (enqueue) order,
`json.Marshal` it and `Put` it under `itob(NextSequence())`; `seq` is
the bucket's sequence counter (a Go `uint64`, whose wrap-around
`itob` reproduces by dropping bits above the 64th). -/
def persistOpsFrom : Nat → List (List Nat × StoredOp) → List Operation →
    List (List Nat × StoredOp)
  | _, bucket, [] => bucket
  | seq, bucket, op :: rest =>
    persistOpsFrom (seq + 1) (bucketPut (itob (seq + 1)) (marshalOp op) bucket) rest

/-- The freshly created `operations` sub-bucket after `persist` has
written all operations of a patch (sequence counter starts at 0, so the
first key is `itob 1`). -/
def persistOps (ops : List Operation) : List (List Nat × StoredOp) :=
  persistOpsFrom 0 [] ops

/-- The record written for a patch by the transaction body of `persist`
(patch-store.go:273-285): the marshalled stamp, the first error's text
when `HasErrors` reports any, the source endpoint's URI, and the
operations sub-bucket. -/
def persistRecord (p : Patch) : PatchRecord :=
  { stampData := some (some p.stamp)
    patchError := p.errors.head?
    sourceURI := some p.sourceURI
    ops := persistOps p.operations }

/-- Full-replace write of a patch record under its UUID
(patch-store.go:264-272): any existing sub-bucket for the UUID is
deleted before the new record is written. -/
def dbPut (db : Db) (uuid : String) (r : PatchRecord) : Db :=
  List.filter (fun e => e.1 ≠ uuid) db ++ [(uuid, r)]

/-- The mutable state of the persistence worker: the backing store
contents and the `lastHasErrors` flag. -/
structure StoreState where
  db : Db
  lastHasErrors : Bool

/-- The suppression test of `persist` (patch-store.go:255): an
empty, error-free patch is skipped when the previous persisted patch
was also error-free. -/
def persistSkips (st : StoreState) (p : Patch) : Bool :=
  p.operations.isEmpty && !p.hasErrorsB && !st.lastHasErrors

/-- `persist` (patch-store.go:252-288) with the backing-store
transaction outcome made explicit: `txOk = false` means `db.Update`
returned an error (its effects rolled back).  The second component is
the error surfaced to the caller of `Store`/`PublishPatch`; the Go
`persist` has no return value and discards the `db.Update` error, so it
is `none` on every path — this definition makes that absence explicit.
`lastHasErrors` is assigned before the transaction runs, so it is
updated even when the transaction fails. -/
def persistStepTx (st : StoreState) (p : Patch) (txOk : Bool) :
    StoreState × Option String :=
  if persistSkips st p then (st, none)
  else if txOk then
    ({ db := dbPut st.db p.uuid (persistRecord p), lastHasErrors := p.hasErrorsB }, none)
  else
    ({ st with lastHasErrors := p.hasErrorsB }, none)

/-- `persist` on the happy path (transaction commits). -/
def persistStep (st : StoreState) (p : Patch) : StoreState :=
  (persistStepTx st p true).1

/-- The currently configured endpoints of the store (`p.source` and
`p.target`), reduced to the identity strings the load path consults. -/
structure Config where
  sourceURI : String
  targetURI : String

/-- A patch as reconstructed by `Load`: `operations` holds one entry
per `Enqueue` call, `none` standing for an enqueued nil operation. -/
structure LoadedPatch where
  uuid : String
  sourceURI : String
  targetURI : String
  stamp : Int
  patchError : Option String
  operations : List (Option Operation)
deriving Repr

/-- The role-inversion test of `Load` (patch-store.go:169): a stored
`source` entry exists and differs from the configured source URI. -/
def roleInverted (cfg : Config) (r : PatchRecord) : Bool :=
  match r.sourceURI with
  | some s => s != cfg.sourceURI
  | none => false

/-- The stamp applied to a reconstructed patch (patch-store.go:174-178):
the stored stamp when it is present and parses, otherwise the patch's
default stamp survives. -/
def loadStamp (now : Int) (r : PatchRecord) : Int :=
  match r.stampData with
  | some (some t) => t
  | _ => now

/-- Reconstruction of one patch from its stored record, following the
per-bucket body of `Load` (patch-store.go:160-192): a fresh patch bound
to the configured (source, target) gets the stored UUID; the stored
error is attached; roles are inverted when `roleInverted` holds; the
stamp is applied only when the stored `stamp` entry parses; the
operation records are walked in ascending key order (the bucket is
kept in key order).  Each field is the net result of the sequential
mutations the Go code performs on the fresh patch.  Modelled from the
spec: the fresh patch created by the external `merger.NewPatch` carries
the current time as its default stamp (`now`), which survives when the
stored stamp is absent or unparsable. -/
def loadPatch (cfg : Config) (now : Int) (uuid : String) (r : PatchRecord) : LoadedPatch :=
  { uuid := uuid
    sourceURI := if roleInverted cfg r then cfg.targetURI else cfg.sourceURI
    targetURI := if roleInverted cfg r then cfg.sourceURI else cfg.targetURI
    stamp := loadStamp now r
    patchError := r.patchError
    operations := loadOps (List.map Prod.snd r.ops) }

/-- Every stored patch reconstructed into memory (the cursor loop of
`Load`, patch-store.go:159-193). -/
def loadAll (cfg : Config) (now : Int) (db : Db) : List LoadedPatch :=
  List.map (fun e => loadPatch cfg now e.1 e.2) db

/-- The order `patchSorter.Less` sorts by (patch-store.go:52-54):
`p[i].GetStamp().After(p[j].GetStamp())`, i.e. stamps in descending
order; `stampGE a b` says `a` may precede `b` in the sorted output. -/
def stampGE (a b : LoadedPatch) : Prop := b.stamp ≤ a.stamp

instance : DecidableRel stampGE :=
  fun a b => inferInstanceAs (Decidable (b.stamp ≤ a.stamp))

instance : IsTotal LoadedPatch stampGE :=
  ⟨fun a b => Int.le_total b.stamp a.stamp⟩

instance : IsTrans LoadedPatch stampGE :=
  ⟨fun _ _ _ hab hbc => le_trans hbc hab⟩

/-- `sort.Sort(stamps)` (patch-store.go:200), modelled as insertion
sort under the `patchSorter` order: the contract of `sort.Sort` is a
permutation of its input sorted by `Less`, which insertion sort
satisfies. -/
def sortByStamp (l : List LoadedPatch) : List LoadedPatch :=
  List.insertionSort stampGE l

/-- All stored patches, reconstructed and sorted most-recent-first,
exactly the `stamps` list of `Load` after sorting. -/
def loadSorted (cfg : Config) (now : Int) (db : Db) : List LoadedPatch :=
  sortByStamp (loadAll cfg now db)

/-- The pagination loop of `Load` (patch-store.go:207-215): `i` is the
running index; indices below `offset` are skipped, then each element is
appended and the loop breaks once `i >= offset+limit-1`.  `offset` and
`limit` are Go `int`s, so this is over `Int`. -/
def pageLoop {α : Type} : List α → Int → Int → Int → List α
  | [], _, _, _ => []
  | x :: xs, i, offset, limit =>
    if i < offset then pageLoop xs (i + 1) offset limit
    else if offset + limit - 1 ≤ i then [x]
    else x :: pageLoop xs (i + 1) offset limit

/-- The page of patches returned by `Load(offset, limit)`. -/
def loadPage (cfg : Config) (now : Int) (db : Db) (offset limit : Int) : List LoadedPatch :=
  pageLoop (loadSorted cfg now db) 0 offset limit

/-- The result of `Load(offset, limit)`: the transaction callback of
`Load` always returns nil, so the page is delivered without a
load-level error. -/
def loadResult (cfg : Config) (now : Int) (db : Db) (offset limit : Int) :
    Except String (List LoadedPatch) :=
  Except.ok (loadPage cfg now db offset limit)

/-- The prune list computed by `Load` (patch-store.go:201-206): the
UUIDs of every sorted patch past the first 100. -/
def pruneUuids (cfg : Config) (now : Int) (db : Db) : List String :=
  List.map LoadedPatch.uuid (List.drop 100 (loadSorted cfg now db))

/-- The background prune transaction (patch-store.go:218-232): delete
the sub-bucket of every UUID on the prune list. -/
def pruneDb (db : Db) (uuids : List String) : Db :=
  List.filter (fun e => e.1 ∉ uuids) db

/-! ### Sample store contents used by the witnesses -/

/-- A sample configuration: source endpoint `src`, target `tgt`. -/
def cfg0 : Config := ⟨"src", "tgt"⟩

/-- A well-formed stored patch record with the given stamp and no
operations. -/
def rec0 (t : Int) : PatchRecord :=
  { stampData := some (some t), patchError := none, sourceURI := some "src", ops := [] }

/-- A sample store holding three patches with distinct stamps. -/
def db0 : Db := [("u1", rec0 1), ("u2", rec0 2), ("u3", rec0 3)]

/-- A sample patch with one operation and no errors. -/
def patch0 : Patch :=
  { uuid := "p0", sourceURI := "src", targetURI := "tgt", stamp := 3,
    operations := [.base .updateFile "a"], errors := [] }

/-- A patch reporting one error and no operations. -/
def patchE : Patch :=
  { uuid := "pe", sourceURI := "src", targetURI := "tgt", stamp := 1,
    operations := [], errors := ["boom"] }

/-- An empty, error-free patch. -/
def patchEmpty : Patch :=
  { uuid := "q0", sourceURI := "src", targetURI := "tgt", stamp := 2,
    operations := [], errors := [] }

/-- A stored record whose `source` entry differs from the configured
source endpoint. -/
def recInv : PatchRecord :=
  { stampData := some (some 4), patchError := none, sourceURI := some "other", ops := [] }

/-- A stored record whose `stamp` entry is present but unparsable. -/
def recNoStamp : PatchRecord :=
  { stampData := some none, patchError := none, sourceURI := some "src", ops := [] }

/-- A sample store holding one well-formed patch and one whose stamp
does not parse. -/
def db1 : Db := [("u1", rec0 1), ("uns", recNoStamp)]

/-- A patch reporting two errors. -/
def patchME : Patch :=
  { uuid := "pm", sourceURI := "src", targetURI := "tgt", stamp := 2,
    operations := [], errors := ["first", "second"] }

/-- A stored conflict operation record missing its `LeftOp` key. -/
def badConflictOp : StoredOp :=
  .obj .conflict "c" (some 1) none (some (.obj .updateFile "r" none none none))

/-- The entries the operation-serialization loop writes when the
sequence counter never wraps: operation `i` of the walk goes under key
`itob (seq + 1 + i)`. -/
def opsEntries (seq : Nat) : List Operation → List (List Nat × StoredOp)
  | [] => []
  | op :: rest => (itob (seq + 1), marshalOp op) :: opsEntries (seq + 1) rest

/-- An operation the merger engine can actually hand over for
serialization: a plain operation carries a non-conflict type tag, and a
conflict operation wraps two plain operations (the spec's data model:
nested conflicts do not occur). -/
def Operation.wellFormed : Operation → Bool
  | .base t _ => t != .conflict
  | .conflict _ _ l r => l.isBase && r.isBase

/-- A sample patch with three well-formed operations, one of them a
conflict. -/
def patch3 : Patch :=
  { uuid := "p3", sourceURI := "src", targetURI := "tgt", stamp := 9,
    operations := [.base .updateFile "a",
                   .conflict "c" 2 (.base .createFile "l") (.base .updateFile "r"),
                   .base .delete "b"],
    errors := [] }

/-- A sample store of `n` patches with UUIDs `q0`, `q1`, … and
strictly increasing stamps. -/
def dbN (n : Nat) : Db :=
  List.map (fun i => (String.append "q" (Nat.repr i), rec0 (Int.ofNat i))) (List.range n)

/-! ## Theorems -/

/-- The `[x]` branch of `pageLoop` is only reached after the element has
been appended: once `offset ≤ i`, the loop takes elements until the
break test `offset + limit - 1 ≤ i` fires, yielding a prefix of
`offset + limit - i` elements. -/
theorem pageLoop_take {α : Type} (l : List α) :
    ∀ (i offset limit : Int), offset ≤ i → i ≤ offset + limit - 1 →
      pageLoop l i offset limit = l.take (offset + limit - i).toNat := by
  induction l with
  | nil => intro i offset limit _ _; simp [pageLoop]
  | cons x xs ih =>
    intro i offset limit h1 h2
    unfold pageLoop
    rw [if_neg (by omega)]
    by_cases hbr : offset + limit - 1 ≤ i
    · rw [if_pos hbr]
      have hn : (offset + limit - i).toNat = 1 := by omega
      rw [hn]
      simp
    · rw [if_neg hbr]
      rw [ih (i + 1) offset limit (by omega) (by omega)]
      have hn : (offset + limit - i).toNat = (offset + limit - (i + 1)).toNat + 1 := by omega
      rw [hn, List.take_succ_cons]

/-- While `i` is below `offset` the loop skips, so `pageLoop` computes
`take limit (drop (offset - i) l)` whenever `limit ≥ 1`. -/
theorem pageLoop_drop {α : Type} (l : List α) :
    ∀ (i offset limit : Int), i ≤ offset → 1 ≤ limit →
      pageLoop l i offset limit = (l.drop (offset - i).toNat).take limit.toNat := by
  induction l with
  | nil => intro i offset limit _ _; simp [pageLoop]
  | cons x xs ih =>
    intro i offset limit h1 h2
    unfold pageLoop
    by_cases hski : i < offset
    · rw [if_pos hski, ih (i + 1) offset limit (by omega) h2]
      have hn : (offset - i).toNat = (offset - (i + 1)).toNat + 1 := by omega
      rw [hn, List.drop_succ_cons]
    · rw [if_neg hski]
      have hd : (offset - i).toNat = 0 := by omega
      rw [hd, List.drop_zero]
      by_cases hbr : offset + limit - 1 ≤ i
      · rw [if_pos hbr]
        have hn : limit.toNat = 1 := by omega
        rw [hn]
        simp
      · rw [if_neg hbr]
        rw [pageLoop_take xs (i + 1) offset limit (by omega) (by omega)]
        have hn : limit.toNat = (offset + limit - (i + 1)).toNat + 1 := by omega
        rw [hn, List.take_succ_cons]

/-- With a non-positive `limit`, the break test already holds when the
first in-range element is appended, so the loop returns exactly the
element at position `offset - i`. -/
theorem pageLoop_nonpos {α : Type} (l : List α) :
    ∀ (i offset limit : Int), i ≤ offset → limit ≤ 0 →
      (offset - i).toNat < l.length →
      pageLoop l i offset limit = (l.drop (offset - i).toNat).take 1 := by
  induction l with
  | nil => intro i offset limit _ _ h; simp at h
  | cons x xs ih =>
    intro i offset limit h1 h2 h
    unfold pageLoop
    by_cases hski : i < offset
    · rw [if_pos hski]
      have hn : (offset - i).toNat = (offset - (i + 1)).toNat + 1 := by omega
      have h' : (offset - (i + 1)).toNat < xs.length := by
        simp only [List.length_cons] at h
        omega
      rw [ih (i + 1) offset limit (by omega) h2 h', hn, List.drop_succ_cons]
    · rw [if_neg hski, if_pos (by omega : offset + limit - 1 ≤ i)]
      have hd : (offset - i).toNat = 0 := by omega
      rw [hd, List.drop_zero]
      simp

/-- C3: for every store state, every `offset ≥ 0` and `limit ≥ 1`,
`Load(offset, limit)` sorts the entire stored patch set by stamp
descending and returns exactly the patches at sorted positions
`offset` through `offset+limit-1` inclusive (fewer if the set ends
earlier), and an `offset` at or past the total count yields the empty
list. -/
theorem load_pagination (cfg : Config) (now : Int) (db : Db) (offset limit : Int)
    (h0 : 0 ≤ offset) (h1 : 1 ≤ limit) :
    loadPage cfg now db offset limit
        = List.take limit.toNat (List.drop offset.toNat (loadSorted cfg now db))
      ∧ List.Sorted stampGE (loadSorted cfg now db)
      ∧ (loadSorted cfg now db).Perm (loadAll cfg now db)
      ∧ ((loadSorted cfg now db).length ≤ offset.toNat →
          loadPage cfg now db offset limit = []) := by
  have hpage : loadPage cfg now db offset limit
      = List.take limit.toNat (List.drop offset.toNat (loadSorted cfg now db)) := by
    unfold loadPage
    rw [pageLoop_drop _ 0 offset limit (by omega) h1]
    have hz : (offset - 0).toNat = offset.toNat := by omega
    rw [hz]
  refine ⟨hpage, List.sorted_insertionSort stampGE _, List.perm_insertionSort stampGE _, ?_⟩
  intro hlen
  rw [hpage, List.drop_eq_nil_of_le hlen, List.take_nil]

/-- Witness for C3 on the sample store. -/
theorem load_pagination_witness :
    loadPage cfg0 0 db0 1 2
        = List.take (Int.toNat 2) (List.drop (Int.toNat 1) (loadSorted cfg0 0 db0))
      ∧ List.Sorted stampGE (loadSorted cfg0 0 db0)
      ∧ (loadSorted cfg0 0 db0).Perm (loadAll cfg0 0 db0)
      ∧ ((loadSorted cfg0 0 db0).length ≤ Int.toNat 1 →
          loadPage cfg0 0 db0 1 2 = []) :=
  load_pagination cfg0 0 db0 1 2 (by decide) (by decide)

/-- C9: with at least `offset + 1` stored patches, a zero or negative
`limit` yields exactly the single patch at sorted position `offset`,
because the page loop appends that element before evaluating the break
condition. -/
theorem load_nonpositive_limit_returns_one (cfg : Config) (now : Int) (db : Db)
    (offset limit : Int) (h0 : 0 ≤ offset) (hl : limit ≤ 0)
    (h : offset.toNat < (loadSorted cfg now db).length) :
    loadPage cfg now db offset limit
      = [(loadSorted cfg now db).get ⟨offset.toNat, h⟩] := by
  unfold loadPage
  rw [pageLoop_nonpos _ 0 offset limit (by omega) hl
    (by rw [show ((offset : Int) - 0).toNat = offset.toNat by omega]; exact h)]
  rw [show ((offset : Int) - 0).toNat = offset.toNat by omega]
  rw [List.drop_eq_getElem_cons h, show (1 : Nat) = 0 + 1 by rfl, List.take_succ_cons]
  simp [List.get_eq_getElem]

/-- Witness for C9 on the sample store. -/
theorem load_nonpositive_limit_returns_one_witness :
    loadPage cfg0 0 db0 0 0
      = [(loadSorted cfg0 0 db0).get ⟨Int.toNat 0, by decide⟩] :=
  load_nonpositive_limit_returns_one cfg0 0 db0 0 0 (by decide) (by decide) (by decide)

/-- A non-skipped patch is written under its UUID and the flag takes
its error status. -/
theorem persistStep_not_skipped (st : StoreState) (p : Patch)
    (h : persistSkips st p = false) :
    (persistStep st p).db = dbPut st.db p.uuid (persistRecord p)
    ∧ (persistStep st p).lastHasErrors = p.hasErrorsB := by
  constructor <;> simp [persistStep, persistStepTx, h]

/-- C4: the worker skips a submitted patch exactly when it has zero
operations, reports no error and the last-had-error flag is false; a
patch that is not skipped is written and sets the flag to its own error
status; consequently a recovery run (a patch after an error patch, even
if empty and error-free) is always written. -/
theorem persist_suppression_policy (st : StoreState) (p : Patch) :
    (persistSkips st p = true ↔
        p.operations = [] ∧ p.errors = [] ∧ st.lastHasErrors = false)
    ∧ (persistSkips st p = true → persistStep st p = st)
    ∧ (persistSkips st p = false →
        (persistStep st p).db = dbPut st.db p.uuid (persistRecord p)
        ∧ (persistStep st p).lastHasErrors = p.hasErrorsB)
    ∧ (p.errors ≠ [] → ∀ q : Patch, q.operations = [] → q.errors = [] →
        (persistStep (persistStep st p) q).db
          = dbPut (persistStep st p).db q.uuid (persistRecord q)) := by
  refine ⟨?_, ?_, persistStep_not_skipped st p, ?_⟩
  · simp [persistSkips, Patch.hasErrorsB, List.isEmpty_iff, Bool.and_eq_true,
      Bool.not_eq_true', and_assoc]
  · intro h
    simp [persistStep, persistStepTx, h]
  · intro hp q hq1 hq2
    have hpe : p.hasErrorsB = true := by
      simp [Patch.hasErrorsB, List.isEmpty_iff, hp]
    have hskip : persistSkips st p = false := by simp [persistSkips, hpe]
    have hflag : (persistStep st p).lastHasErrors = true := by
      simp [persistStep, persistStepTx, hskip, hpe]
    have hskipq : persistSkips (persistStep st p) q = false := by
      simp [persistSkips, hflag]
    exact (persistStep_not_skipped _ q hskipq).1

/-- Witness for C4: an error patch followed by an empty error-free
patch still writes the empty patch. -/
theorem persist_suppression_policy_witness :
    (persistStep (persistStep ⟨[], false⟩ patchE) patchEmpty).db
      = dbPut (persistStep ⟨[], false⟩ patchE).db patchEmpty.uuid (persistRecord patchEmpty) :=
  (persist_suppression_policy ⟨[], false⟩ patchE).2.2.2 (by decide) patchEmpty rfl rfl

/-- C6: a stored source identity differing from the configured source
URI makes the loaded patch's source the configured target and its
target the configured source; an equal identity keeps the configured
orientation. -/
theorem load_role_inversion (cfg : Config) (now : Int) (uuid : String)
    (r : PatchRecord) (s : String) (hs : r.sourceURI = some s) :
    (s ≠ cfg.sourceURI →
        (loadPatch cfg now uuid r).sourceURI = cfg.targetURI
      ∧ (loadPatch cfg now uuid r).targetURI = cfg.sourceURI)
    ∧ (s = cfg.sourceURI →
        (loadPatch cfg now uuid r).sourceURI = cfg.sourceURI
      ∧ (loadPatch cfg now uuid r).targetURI = cfg.targetURI) := by
  constructor
  · intro hne
    have hinv : roleInverted cfg r = true := by
      simp [roleInverted, hs, bne_iff_ne, hne]
    simp [loadPatch, hinv]
  · intro heq
    have hinv : roleInverted cfg r = false := by
      simp [roleInverted, hs, bne_iff_ne, heq]
    simp [loadPatch, hinv]

/-- Witness for C6 on a record persisted under a different source. -/
theorem load_role_inversion_witness :
    (loadPatch cfg0 0 "u" recInv).sourceURI = cfg0.targetURI
    ∧ (loadPatch cfg0 0 "u" recInv).targetURI = cfg0.sourceURI :=
  (load_role_inversion cfg0 0 "u" recInv "other" rfl).1 (by decide)

/-- C7: a patch whose stored stamp is absent or unparsable still loads
— it keeps the load-time default stamp, it appears among the
reconstructed patches, and `Load` returns its page without a load-level
error. -/
theorem load_stamp_default (cfg : Config) (now : Int) (uuid : String)
    (r : PatchRecord) (db : Db)
    (h : r.stampData = none ∨ r.stampData = some none) (hm : (uuid, r) ∈ db) :
    (loadPatch cfg now uuid r).stamp = now
    ∧ loadPatch cfg now uuid r ∈ loadAll cfg now db
    ∧ ∀ offset limit : Int,
        loadResult cfg now db offset limit
          = Except.ok (loadPage cfg now db offset limit) := by
  refine ⟨?_, List.mem_map.mpr ⟨(uuid, r), hm, rfl⟩, fun _ _ => rfl⟩
  rcases h with h | h <;> simp [loadPatch, loadStamp, h]

/-- Witness for C7: the unparsable-stamp record loads with the default
stamp. -/
theorem load_stamp_default_witness :
    (loadPatch cfg0 7 "uns" recNoStamp).stamp = 7 :=
  (load_stamp_default cfg0 7 "uns" recNoStamp db1 (Or.inr rfl)
    (List.Mem.tail _ (List.Mem.head _))).1

/-- C10: only the first error's message is persisted under the
`patchError` key, the reconstructed patch carries exactly that text,
and the stored record is independent of the remaining errors, which are
therefore not recoverable from the store. -/
theorem persist_first_error_only (cfg : Config) (now : Int) (p : Patch)
    (e0 : String) (rest : List String) (h : p.errors = e0 :: rest) :
    (persistRecord p).patchError = some e0
    ∧ (loadPatch cfg now p.uuid (persistRecord p)).patchError = some e0
    ∧ ∀ rest' : List String,
        persistRecord { p with errors := e0 :: rest' } = persistRecord p := by
  refine ⟨?_, ?_, ?_⟩
  · simp [persistRecord, h]
  · simp [loadPatch, persistRecord, h]
  · intro rest'
    simp [persistRecord, h]

/-- Witness for C10 on a two-error patch. -/
theorem persist_first_error_only_witness :
    (persistRecord patchME).patchError = some "first"
    ∧ (loadPatch cfg0 0 patchME.uuid (persistRecord patchME)).patchError = some "first" :=
  ⟨(persist_first_error_only cfg0 0 patchME "first" ["second"] rfl).1,
   (persist_first_error_only cfg0 0 patchME "first" ["second"] rfl).2.1⟩

/-- C1 (code behavior at the failing input): a conflict record missing
one of its three required fields is logged but NOT skipped — after
`unmarshalConflict` returns `(nil, err)`, the loop still reaches
`patch.Enqueue(operation)` with the nil result, so the reconstructed
patch holds a nil operation between the two well-formed ones instead of
just the two well-formed ones. -/
theorem conflict_missing_field_enqueued_as_nil :
    (loadPatch cfg0 0 "u"
      { stampData := some (some 5), patchError := none, sourceURI := some "src",
        ops := [(itob 1, .obj .updateFile "a" none none none),
                (itob 2, badConflictOp),
                (itob 3, .obj .delete "b" none none none)] }).operations
      = [some (.base .updateFile "a"), none, some (.base .delete "b")] := rfl

/-- C8 (code behavior): a failing backing-store transaction during
`persist` is never surfaced to the caller of `Store`/`PublishPatch` —
`persist` discards the `db.Update` error on every path, and at the
concrete failing input the worker just updates its flag and moves on. -/
theorem persist_write_failure_not_surfaced :
    (∀ (st : StoreState) (p : Patch) (txOk : Bool),
        (persistStepTx st p txOk).2 = none)
    ∧ (persistStepTx ⟨[], false⟩ patch0 false).2 = none
    ∧ (persistStepTx ⟨[], false⟩ patch0 false).1.lastHasErrors = false := by
  refine ⟨fun st p txOk => ?_, rfl, rfl⟩
  unfold persistStepTx
  split
  · rfl
  · split <;> rfl

/-- `toBytesBE` always produces exactly `n` bytes. -/
theorem toBytesBE_length (n : Nat) : ∀ v, (toBytesBE n v).length = n := by
  induction n with
  | zero => intro v; rfl
  | succ n ih => intro v; simp [toBytesBE, ih]

/-- Appending one byte to each of two equal-length strings keeps a
strict lexicographic comparison of the prefixes. -/
theorem bytesLt_append_of_lt :
    ∀ (xs ys : List Nat), xs.length = ys.length → bytesLt xs ys = true →
      ∀ (x y : Nat), bytesLt (xs ++ [x]) (ys ++ [y]) = true := by
  intro xs
  induction xs with
  | nil =>
    intro ys hlen hlt x y
    cases ys with
    | nil => simp [bytesLt] at hlt
    | cons b bs => simp at hlen
  | cons a as ih =>
    intro ys hlen hlt x y
    cases ys with
    | nil => simp at hlen
    | cons b bs =>
      simp only [List.cons_append]
      by_cases h1 : a < b
      · simp [bytesLt, h1]
      · by_cases h2 : b < a
        · simp [bytesLt, h1, h2] at hlt
        · have hlt' : bytesLt as bs = true := by simpa [bytesLt, h1, h2] using hlt
          simpa [bytesLt, h1, h2] using ih bs (by simpa using hlen) hlt' x y

/-- With equal prefixes, the appended last byte decides the
comparison. -/
theorem bytesLt_append_same :
    ∀ (xs : List Nat) (x y : Nat), x < y → bytesLt (xs ++ [x]) (xs ++ [y]) = true := by
  intro xs
  induction xs with
  | nil => intro x y h; simp [bytesLt, h]
  | cons a as ih => intro x y h; simpa [bytesLt] using ih x y h

/-- Big-endian expansion to a fixed width is strictly monotone below
`256 ^ n`. -/
theorem toBytesBE_lt : ∀ (n a b : Nat), a < b → b < 256 ^ n →
    bytesLt (toBytesBE n a) (toBytesBE n b) = true := by
  intro n
  induction n with
  | zero => intro a b hab hb; simp at hb; omega
  | succ n ih =>
    intro a b hab hb
    have hb' : b / 256 < 256 ^ n := by
      apply Nat.div_lt_of_lt_mul
      rw [pow_succ] at hb
      omega
    simp only [toBytesBE]
    by_cases hq : a / 256 < b / 256
    · exact bytesLt_append_of_lt _ _ (by simp [toBytesBE_length]) (ih _ _ hq hb') _ _
    · have hqe : a / 256 = b / 256 := by
        have := Nat.div_le_div_right (c := 256) (Nat.le_of_lt hab)
        omega
      have hm : a % 256 < b % 256 := by omega
      rw [hqe]
      exact bytesLt_append_same _ _ _ hm

/-- `itob` is strictly monotone below `2 ^ 64` in the bucket's key
order. -/
theorem itob_lt {a b : Nat} (hab : a < b) (hb : b < 2 ^ 64) :
    bytesLt (itob a) (itob b) = true :=
  toBytesBE_lt 8 a b hab (by omega)

/-- The key order is irreflexive. -/
theorem bytesLt_irrefl : ∀ ks : List Nat, bytesLt ks ks = false := by
  intro ks
  induction ks with
  | nil => rfl
  | cons a as ih => simp [bytesLt, ih]

/-- The key order is asymmetric. -/
theorem bytesLt_asymm :
    ∀ (xs ys : List Nat), bytesLt xs ys = true → bytesLt ys xs = false := by
  intro xs
  induction xs with
  | nil =>
    intro ys h
    cases ys with
    | nil => simp [bytesLt] at h
    | cons b bs => rfl
  | cons a as ih =>
    intro ys h
    cases ys with
    | nil => simp [bytesLt] at h
    | cons b bs =>
      by_cases h1 : a < b
      · simp [bytesLt, h1, Nat.lt_asymm h1]
      · by_cases h2 : b < a
        · simp [bytesLt, h1, h2] at h
        · have h' : bytesLt as bs = true := by simpa [bytesLt, h1, h2] using h
          simp [bytesLt, h1, h2, ih bs h']

/-- `Put` with a key strictly greater than every existing key appends
the entry at the end of the bucket. -/
theorem bucketPut_append (k : List Nat) (v : StoredOp) :
    ∀ bucket : List (List Nat × StoredOp),
      (∀ kv ∈ bucket, bytesLt kv.1 k = true) →
      bucketPut k v bucket = bucket ++ [(k, v)] := by
  intro bucket
  induction bucket with
  | nil => intro _; rfl
  | cons e rest ih =>
    intro h
    have he : bytesLt e.1 k = true := h e (List.mem_cons_self e rest)
    have h1 : bytesLt k e.1 = false := bytesLt_asymm _ _ he
    have h2 : k ≠ e.1 := by
      intro hk
      rw [hk, bytesLt_irrefl] at he
      exact absurd he (by simp)
    obtain ⟨k', v'⟩ := e
    simp only [bucketPut]
    rw [if_neg (by simp_all), if_neg h2,
      ih (fun kv hkv => h kv (List.mem_cons_of_mem _ hkv))]
    rfl

/-- Every key of `opsEntries seq ops` is `itob j` for a sequence number
`j` in `(seq, seq + length]`. -/
theorem opsEntries_key_mem : ∀ (ops : List Operation) (seq : Nat) (kv),
    kv ∈ opsEntries seq ops →
    ∃ j, seq < j ∧ j ≤ seq + ops.length ∧ kv.1 = itob j := by
  intro ops
  induction ops with
  | nil => intro seq kv h; simp [opsEntries] at h
  | cons op rest ih =>
    intro seq kv h
    simp only [opsEntries, List.mem_cons] at h
    rcases h with h | h
    · exact ⟨seq + 1, by omega, by rw [List.length_cons]; omega, by rw [h]⟩
    · obtain ⟨j, hj1, hj2, hj3⟩ := ih (seq + 1) kv h
      exact ⟨j, by omega, by rw [List.length_cons]; omega, hj3⟩

/-- As long as the sequence counter does not wrap, every `Put` of the
serialization loop appends, so the loop produces `opsEntries`. -/
theorem persistOpsFrom_eq : ∀ (ops : List Operation) (seq : Nat)
    (bucket : List (List Nat × StoredOp)),
    seq + ops.length < 2 ^ 64 →
    (∀ kv ∈ bucket, ∀ m, seq < m → m < 2 ^ 64 → bytesLt kv.1 (itob m) = true) →
    persistOpsFrom seq bucket ops = bucket ++ opsEntries seq ops := by
  intro ops
  induction ops with
  | nil => intro seq bucket _ _; simp [persistOpsFrom, opsEntries]
  | cons op rest ih =>
    intro seq bucket hlen hb
    have hlen' : seq + 1 + rest.length < 2 ^ 64 := by simp at hlen; omega
    simp only [persistOpsFrom, opsEntries]
    rw [bucketPut_append _ _ bucket
      (fun kv hkv => hb kv hkv (seq + 1) (by omega) (by omega))]
    rw [ih (seq + 1) _ hlen' ?hnew]
    · simp
    case hnew =>
      intro kv hkv m hm1 hm2
      rcases List.mem_append.mp hkv with hmem | hmem
      · exact hb kv hmem m (by omega) hm2
      · simp at hmem
        rw [hmem]
        exact itob_lt (by omega) hm2

/-- The bucket values of `opsEntries` are the marshalled operations in
walk order. -/
theorem opsEntries_map_snd : ∀ (ops : List Operation) (seq : Nat),
    List.map Prod.snd (opsEntries seq ops) = List.map marshalOp ops := by
  intro ops
  induction ops with
  | nil => intro seq; rfl
  | cons op rest ih => intro seq; simp [opsEntries, ih]

/-- Without sequence wrap-around, `persist` lays the operations out as
`opsEntries 0`. -/
theorem persistOps_eq (ops : List Operation) (h : ops.length < 2 ^ 64) :
    persistOps ops = opsEntries 0 ops := by
  unfold persistOps
  rw [persistOpsFrom_eq ops 0 [] (by omega) (by intro kv hkv _ _ _; simp at hkv)]
  rfl

/-- The keys written by the serialization loop are strictly increasing
in the bucket's cursor order. -/
theorem opsEntries_pairwise : ∀ (ops : List Operation) (seq : Nat),
    seq + ops.length < 2 ^ 64 →
    List.Pairwise (fun e1 e2 => bytesLt e1.1 e2.1 = true) (opsEntries seq ops) := by
  intro ops
  induction ops with
  | nil => intro seq _; exact List.Pairwise.nil
  | cons op rest ih =>
    intro seq hlen
    have hlen' : seq + 1 + rest.length < 2 ^ 64 := by simp at hlen; omega
    refine List.Pairwise.cons ?_ (ih (seq + 1) hlen')
    intro kv hkv
    obtain ⟨j, hj1, hj2, hj3⟩ := opsEntries_key_mem rest (seq + 1) kv hkv
    rw [hj3]
    exact itob_lt (by omega) (by omega)

/-- A plain operation survives the nested unmarshal untouched. -/
theorem unmarshalBase_marshalOp {op : Operation} (h : op.isBase = true) :
    unmarshalBase (marshalOp op) = some op := by
  cases op with
  | base t n => rfl
  | conflict n c l r => simp [Operation.isBase] at h

/-- A well-formed operation round-trips through marshal and the load
loop's unmarshal. -/
theorem loadOp_marshalOp {op : Operation} (h : op.wellFormed = true) :
    loadOp (marshalOp op) = some (some op) := by
  cases op with
  | base t n =>
    have ht : t ≠ .conflict := by
      simpa [Operation.wellFormed, bne_iff_ne] using h
    simp [loadOp, marshalOp, unmarshalBase, unmarshalConflict, Operation.type, ht]
  | conflict n c l r =>
    cases l with
    | conflict _ _ _ _ => simp [Operation.wellFormed, Operation.isBase] at h
    | base tl nl =>
      cases r with
      | conflict _ _ _ _ => simp [Operation.wellFormed, Operation.isBase] at h
      | base tr nr => rfl

/-- Loading the marshalled forms of well-formed operations enqueues
exactly those operations, in order. -/
theorem loadOps_marshal (ops : List Operation)
    (hwf : ∀ op ∈ ops, op.wellFormed = true) :
    loadOps (List.map marshalOp ops) = List.map some ops := by
  induction ops with
  | nil => rfl
  | cons op rest ih =>
    have h1 := loadOp_marshalOp (hwf op (List.mem_cons_self op rest))
    have h2 : List.filterMap loadOp (List.map marshalOp rest) = List.map some rest :=
      ih (fun o ho => hwf o (List.mem_cons_of_mem _ ho))
    simp [loadOps, List.filterMap_cons, h1, h2]

/-- C2: `persist` writes the operations of a patch in enqueue order
under strictly increasing 8-byte big-endian sequence keys, and `Load`
walks the operation records in ascending stored-key order, so the
loaded patch holds exactly the enqueued operations in the same relative
order. -/
theorem persist_load_preserves_operation_order (cfg : Config) (now : Int) (p : Patch)
    (hlen : p.operations.length < 2 ^ 64)
    (hwf : ∀ op ∈ p.operations, op.wellFormed = true) :
    (persistRecord p).ops = opsEntries 0 p.operations
    ∧ List.Pairwise (fun e1 e2 => bytesLt e1.1 e2.1 = true) (persistRecord p).ops
    ∧ (loadPatch cfg now p.uuid (persistRecord p)).operations
        = List.map some p.operations := by
  have h1 : (persistRecord p).ops = opsEntries 0 p.operations :=
    persistOps_eq p.operations hlen
  refine ⟨h1, ?_, ?_⟩
  · rw [h1]
    exact opsEntries_pairwise p.operations 0 (by omega)
  · show loadOps (List.map Prod.snd (persistRecord p).ops) = _
    rw [h1, opsEntries_map_snd, loadOps_marshal p.operations hwf]

/-- Witness for C2 on a three-operation patch containing a conflict. -/
theorem persist_load_preserves_operation_order_witness :
    (persistRecord patch3).ops = opsEntries 0 patch3.operations
    ∧ List.Pairwise (fun e1 e2 => bytesLt e1.1 e2.1 = true) (persistRecord patch3).ops
    ∧ (loadPatch cfg0 0 patch3.uuid (persistRecord patch3)).operations
        = List.map some patch3.operations :=
  persist_load_preserves_operation_order cfg0 0 patch3 (by decide) (by decide)

/-- Reconstruction keeps each record's stored key as the patch UUID, so
the loaded UUIDs are exactly the stored bucket keys. -/
theorem loadAll_map_uuid (cfg : Config) (now : Int) (db : Db) :
    List.map LoadedPatch.uuid (loadAll cfg now db) = List.map Prod.fst db := by
  unfold loadAll
  rw [List.map_map]
  rfl

/-- C5: `Load` computes a prune list holding exactly the patches beyond
the 100 most recent by stamp (`N - 100` of them, none when `N ≤ 100`),
and the triggered prune deletes exactly those records, leaving the 100
most recent patches in the store. -/
theorem load_prune_retention (cfg : Config) (now : Int) (db : Db)
    (hnd : (List.map Prod.fst db).Nodup) :
    pruneUuids cfg now db
        = List.map LoadedPatch.uuid (List.drop 100 (loadSorted cfg now db))
    ∧ (pruneUuids cfg now db).length = db.length - 100
    ∧ (db.length ≤ 100 → pruneUuids cfg now db = [])
    ∧ (pruneDb db (pruneUuids cfg now db)).length = min 100 db.length
    ∧ (∀ e, e ∈ pruneDb db (pruneUuids cfg now db) ↔
        e ∈ db ∧ e.1 ∈ List.map LoadedPatch.uuid (List.take 100 (loadSorted cfg now db))) := by
  have hperm : (loadSorted cfg now db).Perm (loadAll cfg now db) :=
    List.perm_insertionSort stampGE _
  have hlenS : (loadSorted cfg now db).length = db.length := by
    rw [hperm.length_eq, loadAll, List.length_map]
  have hpermU : (List.map LoadedPatch.uuid (loadSorted cfg now db)).Perm
      (List.map Prod.fst db) := by
    have h := hperm.map LoadedPatch.uuid
    rwa [loadAll_map_uuid] at h
  have hndU : (List.map LoadedPatch.uuid (loadSorted cfg now db)).Nodup :=
    hpermU.symm.nodup hnd
  have hsplit : List.map LoadedPatch.uuid (loadSorted cfg now db)
      = List.map LoadedPatch.uuid (List.take 100 (loadSorted cfg now db))
        ++ List.map LoadedPatch.uuid (List.drop 100 (loadSorted cfg now db)) := by
    rw [← List.map_append, List.take_append_drop]
  have hdisj : List.Disjoint
      (List.map LoadedPatch.uuid (List.take 100 (loadSorted cfg now db)))
      (List.map LoadedPatch.uuid (List.drop 100 (loadSorted cfg now db))) :=
    List.disjoint_of_nodup_append (hsplit ▸ hndU)
  refine ⟨rfl, ?_, ?_, ?_, ?_⟩
  · rw [pruneUuids, List.length_map, List.length_drop, hlenS]
  · intro h
    rw [pruneUuids, List.drop_eq_nil_of_le (le_of_eq_of_le hlenS h), List.map_nil]
  · calc (pruneDb db (pruneUuids cfg now db)).length
        = List.countP (fun e => decide (e.1 ∉ pruneUuids cfg now db)) db :=
          (List.countP_eq_length_filter _ db).symm
      _ = List.countP (fun u => decide (u ∉ pruneUuids cfg now db))
            (List.map Prod.fst db) := by
          rw [List.countP_map]; rfl
      _ = List.countP (fun u => decide (u ∉ pruneUuids cfg now db))
            (List.map LoadedPatch.uuid (loadSorted cfg now db)) :=
          (List.Perm.countP_eq _ hpermU).symm
      _ = List.countP (fun u => decide (u ∉ pruneUuids cfg now db))
            (List.map LoadedPatch.uuid (List.take 100 (loadSorted cfg now db)))
          + List.countP (fun u => decide (u ∉ pruneUuids cfg now db))
            (List.map LoadedPatch.uuid (List.drop 100 (loadSorted cfg now db))) := by
          rw [hsplit, List.countP_append]
      _ = min 100 db.length := by
          have hdrop0 : List.countP (fun u => decide (u ∉ pruneUuids cfg now db))
              (List.map LoadedPatch.uuid (List.drop 100 (loadSorted cfg now db))) = 0 :=
            List.countP_eq_zero.mpr (fun a ha => by
              simp only [decide_eq_true_eq]
              intro hcon
              exact hcon ha)
          have htake1 : List.countP (fun u => decide (u ∉ pruneUuids cfg now db))
              (List.map LoadedPatch.uuid (List.take 100 (loadSorted cfg now db)))
              = (List.map LoadedPatch.uuid
                  (List.take 100 (loadSorted cfg now db))).length :=
            List.countP_eq_length.mpr (fun a ha => by
              simp only [decide_eq_true_eq]
              exact fun hdrop => hdisj ha hdrop)
          rw [htake1, hdrop0, Nat.add_zero, List.length_map, List.length_take, hlenS]
  · intro e
    constructor
    · intro he
      rw [pruneDb, List.mem_filter] at he
      obtain ⟨hedb, hpred⟩ := he
      have hne : e.1 ∉ pruneUuids cfg now db := by simpa using hpred
      refine ⟨hedb, ?_⟩
      have h1 : e.1 ∈ List.map Prod.fst db := List.mem_map_of_mem Prod.fst hedb
      have h2 : e.1 ∈ List.map LoadedPatch.uuid (loadSorted cfg now db) :=
        hpermU.mem_iff.mpr h1
      rw [hsplit] at h2
      rcases List.mem_append.mp h2 with h3 | h3
      · exact h3
      · exact absurd h3 hne
    · rintro ⟨hedb, htake⟩
      rw [pruneDb, List.mem_filter]
      refine ⟨hedb, ?_⟩
      simp only [decide_eq_true_eq]
      exact fun hdrop => hdisj htake hdrop

/-- Witness for C5 on a 103-patch store: 3 patches are pruned and 100
remain. -/
theorem load_prune_retention_witness :
    (pruneUuids cfg0 0 (dbN 103)).length = (dbN 103).length - 100
    ∧ (pruneDb (dbN 103) (pruneUuids cfg0 0 (dbN 103))).length = min 100 (dbN 103).length :=
  ⟨(load_prune_retention cfg0 0 (dbN 103) (by decide)).2.1,
   (load_prune_retention cfg0 0 (dbN 103) (by decide)).2.2.2.1⟩

end CellsSync
